import Mathlib

/-!
Formal model of `src/machine_learning/perceptron/single_layer_perceptron.rs`:
a single-layer perceptron with random weight initialization, feedforward
prediction, online delta-rule training with per-epoch shuffling, and
tolerance-based accuracy evaluation.

The source's `f64` values are modelled as rationals (`ℚ`); every operation
the perceptron performs is algebraic, so it translates exactly.  Randomness
is injected explicitly: `Perceptron.new` receives the sequence of draws
produced by `rng.gen_range(-1.0..1.0)` (whose contract is the half-open
interval `[-1, 1)`), and `Perceptron.train` receives, for each epoch, the
permutation that `shuffled_inputs.shuffle(&mut rng)` produces.  A panic
(`expect` on a missing target, or the slice-index underflow on an empty
sample in `test`) is modelled by `Option.none`, and the `NaN` produced by
`correct_predictions as f64 / 0.0` in `test` is likewise `Option.none`.
-/

/-- Modelled from the spec: the `ActivationFunction` type is declared in the
repository outside this file (`crate::machine_learning::perceptron`); §4.2
describes it as a small closed set of variants whose `activate` operation is
a pure, total, stateless function, with the `None` variant (the only one the
repository's code exercises) acting as the identity. -/
inductive ActivationFunction where
  | none
  deriving DecidableEq, Repr

/-- Modelled from the spec: `activate(x: real) -> real`, pure and total;
the identity for the `None` variant. -/
def ActivationFunction.activate : ActivationFunction → ℚ → ℚ
  | ActivationFunction.none, x => x

/-- The `Perceptron` struct: weight vector, learning rate, activation. -/
structure Perceptron where
  weights : List ℚ
  learning_rate : ℚ
  activation_fn : ActivationFunction
  deriving DecidableEq, Repr

/-- `Perceptron::new`: weights are `input_size` fresh draws from
`rng.gen_range(-1.0..1.0)`; the RNG is injected as the stream `draws`. -/
def Perceptron.new (input_size : ℕ) (learning_rate : ℚ)
    (activation_fn : ActivationFunction) (draws : ℕ → ℚ) : Perceptron :=
  Perceptron.mk ((List.range input_size).map draws) learning_rate activation_fn

/-- `Perceptron::feedforward`: dot product of inputs and weights (the `zip`
truncates to the shorter list, as the Rust iterator `zip` does), passed
through the activation function. -/
def Perceptron.feedforward (p : Perceptron) (inputs : List ℚ) : ℚ :=
  p.activation_fn.activate (List.zipWith (fun i w => i * w) inputs p.weights).sum

/-- `Perceptron::update_weights`: `*weight += learning_rate * error * input`
for each pair produced by zipping the weights with the inputs; weights
beyond `inputs.length` are left unchanged (the zip stops). -/
def Perceptron.update_weights (p : Perceptron) (inputs : List ℚ) (error : ℚ) :
    Perceptron :=
  Perceptron.mk
    (List.zipWith (fun w i => w + p.learning_rate * error * i) p.weights inputs
      ++ p.weights.drop inputs.length)
    p.learning_rate p.activation_fn

/-- The body of `Perceptron::train`'s inner loop for one sample:
`input.last().expect("No target value provided")` (a panic, modelled as
`Option.none`, when the sample is empty), features `= &input[..len-1]`,
prediction, error, weight update. -/
def Perceptron.trainStep (p : Perceptron) (input : List ℚ) : Option Perceptron :=
  match input.getLast? with
  | Option.none => Option.none
  | Option.some target =>
    let features := input.dropLast
    let prediction := p.feedforward features
    let error := target - prediction
    Option.some (p.update_weights features error)

/-- `Perceptron::train`: `epochs` passes; each pass processes the shuffled
copy `shuffle e samples` of the caller's (untouched) list in order.  The
per-epoch shuffle results are injected via `shuffle`. -/
def Perceptron.train (p : Perceptron) (samples : List (List ℚ)) (epochs : ℕ)
    (shuffle : ℕ → List (List ℚ) → List (List ℚ)) : Option Perceptron :=
  (List.range epochs).foldlM
    (fun q e => (shuffle e samples).foldlM Perceptron.trainStep q) p

/-- The body of `Perceptron::test`'s loop for one (sample, expected) pair:
on an empty sample, `&input[..input.len() - 1]` panics (usize underflow),
modelled `Option.none`; otherwise the correct-prediction counter is bumped
when `(prediction - output).abs() < 0.0001`. -/
def Perceptron.testStep (p : Perceptron) (acc : ℕ) (pr : List ℚ × ℚ) :
    Option ℕ :=
  if pr.1.isEmpty then Option.none
  else
    let features := pr.1.dropLast
    let prediction := p.feedforward features
    if |prediction - pr.2| < 1/10000 then Option.some (acc + 1)
    else Option.some acc

/-- `Perceptron::test`: count the zipped samples whose prediction over the
feature prefix is within `0.0001` of the expected output, then divide by
`inputs.len()`.  An empty `inputs` makes the division produce `NaN`
(`0.0 / 0.0`), modelled `Option.none`. -/
def Perceptron.test (p : Perceptron) (inputs : List (List ℚ)) (outputs : List ℚ) :
    Option ℚ :=
  ((inputs.zip outputs).foldlM p.testStep 0).bind
    (fun correct =>
      if inputs.length = 0 then Option.none
      else Option.some ((correct : ℚ) / inputs.length))

/-- C6: calling `test` with an empty sample sequence hits the
division-by-zero (`0.0 / 0.0 = NaN` in the source, `Option.none` in the
model): no in-range accuracy value is returned, for any perceptron and any
expected-output list. -/
theorem c6_test_empty_division_by_zero (p : Perceptron) (outputs : List ℚ) :
    Perceptron.test p [] outputs = Option.none := by
  simp [Perceptron.test]

/-- C8: `feedforward` is pure and deterministic.  In this embedding it is a
function of the perceptron value alone (the Rust signature takes `&self`, so
it cannot mutate the weights), and its output depends only on the weights
and the activation function: two perceptrons agreeing on those fields give
equal outputs on every input. -/
theorem c8_feedforward_pure (p q : Perceptron) (inputs : List ℚ)
    (hw : p.weights = q.weights) (ha : p.activation_fn = q.activation_fn) :
    p.feedforward inputs = q.feedforward inputs := by
  simp [Perceptron.feedforward, hw, ha]

/-- Witness for C8 at a concrete input. -/
theorem c8_feedforward_pure_witness :
    (Perceptron.mk [2, 3] (1/10) ActivationFunction.none).feedforward [1, 5] =
      (Perceptron.mk [2, 3] (9/10) ActivationFunction.none).feedforward [1, 5] :=
  c8_feedforward_pure _ _ [1, 5] rfl rfl

/-- The truncating dot product computed by `feedforward`'s `zip`, written as
an indexed sum over the first `min` indices. -/
theorem zipWith_mul_sum_eq (xs ys : List ℚ) :
    (List.zipWith (fun i w => i * w) xs ys).sum =
      ∑ i ∈ Finset.range (min xs.length ys.length), xs.getD i 0 * ys.getD i 0 := by
  induction xs generalizing ys with
  | nil => simp
  | cons x xs ih =>
    cases ys with
    | nil => simp
    | cons y ys =>
      simp only [List.zipWith_cons_cons, List.sum_cons, ih, List.length_cons,
        Nat.succ_min_succ, Finset.sum_range_succ', List.getD_cons_succ,
        List.getD_cons_zero]
      ring

/-- C2: on an input of the weight vector's length, `feedforward` returns the
activation applied to the full dot product `sum_i inputs[i] * weights[i]`. -/
theorem c2_feedforward_is_activated_dot_product (p : Perceptron)
    (inputs : List ℚ) (h : inputs.length = p.weights.length) :
    p.feedforward inputs =
      p.activation_fn.activate
        (∑ i ∈ Finset.range inputs.length,
          inputs.getD i 0 * p.weights.getD i 0) := by
  rw [Perceptron.feedforward, zipWith_mul_sum_eq, h, min_self]

/-- Witness for C2 at a concrete perceptron and input. -/
theorem c2_feedforward_is_activated_dot_product_witness :
    (Perceptron.mk [2, 3] (1/10) ActivationFunction.none).feedforward [1, 5] =
      (Perceptron.mk [2, 3] (1/10)
          ActivationFunction.none).activation_fn.activate
        (∑ i ∈ Finset.range 2,
          ([1, 5] : List ℚ).getD i 0 *
            ([2, 3] : List ℚ).getD i 0) :=
  c2_feedforward_is_activated_dot_product _ [1, 5] (by decide)

/-- Element `i` of the updated weight vector, for `i` under both lengths:
the delta-rule formula. -/
theorem update_weights_getD_lt (lr err : ℚ) :
    ∀ (ws is' : List ℚ) (i : ℕ), i < min ws.length is'.length →
      (List.zipWith (fun w x => w + lr * err * x) ws is'
          ++ ws.drop is'.length).getD i 0 =
        ws.getD i 0 + lr * err * is'.getD i 0 := by
  intro ws
  induction ws with
  | nil => intro is' i h; simp at h
  | cons w ws ih =>
    intro is' i h
    cases is' with
    | nil => simp at h
    | cons x is' =>
      cases i with
      | zero => simp
      | succ j =>
        simp only [List.length_cons, Nat.succ_min_succ] at h
        simpa [List.getD_cons_succ] using ih is' j (Nat.lt_of_succ_lt_succ h)

/-- Elements at or beyond the input's length are untouched by the update. -/
theorem update_weights_getD_ge (lr err : ℚ) :
    ∀ (ws is' : List ℚ) (i : ℕ), is'.length ≤ i →
      (List.zipWith (fun w x => w + lr * err * x) ws is'
          ++ ws.drop is'.length).getD i 0 = ws.getD i 0 := by
  intro ws
  induction ws with
  | nil => intro is' i _; simp
  | cons w ws ih =>
    intro is' i h
    cases is' with
    | nil => simp
    | cons x is' =>
      cases i with
      | zero => simp at h
      | succ j =>
        simpa [List.getD_cons_succ] using ih is' j (Nat.le_of_succ_le_succ h)

/-- C10: on a length mismatch neither `feedforward` nor `update_weights`
aborts; both are total functions that silently truncate to the shorter
list.  `feedforward` sums only the first `min(len(inputs), len(weights))`
products, and `update_weights` keeps the weight count, applies the
delta-rule only to the first `min` entries, and leaves every weight at index
`≥ len(inputs)` unchanged. -/
theorem c10_length_mismatch_truncates (p : Perceptron) (inputs : List ℚ)
    (err : ℚ) :
    p.feedforward inputs =
      p.activation_fn.activate
        (∑ i ∈ Finset.range (min inputs.length p.weights.length),
          inputs.getD i 0 * p.weights.getD i 0) ∧
    (p.update_weights inputs err).weights.length = p.weights.length ∧
    (∀ i, i < min p.weights.length inputs.length →
      (p.update_weights inputs err).weights.getD i 0 =
        p.weights.getD i 0 + p.learning_rate * err * inputs.getD i 0) ∧
    ∀ i, inputs.length ≤ i →
      (p.update_weights inputs err).weights.getD i 0 = p.weights.getD i 0 := by
  refine ⟨by rw [Perceptron.feedforward, zipWith_mul_sum_eq], ?_, ?_, ?_⟩
  · simp only [Perceptron.update_weights, List.length_append,
      List.length_zipWith, List.length_drop]
    omega
  · intro i hi
    exact update_weights_getD_lt p.learning_rate err p.weights inputs i hi
  · intro i hi
    exact update_weights_getD_ge p.learning_rate err p.weights inputs i hi

/-- Witness for C10 at a concrete mismatched pair (3 weights, 2 inputs). -/
theorem c10_length_mismatch_truncates_witness :
    (Perceptron.mk [2, 3, 7] (1/10) ActivationFunction.none).feedforward
        [1, 5] =
      (Perceptron.mk [2, 3, 7] (1/10)
          ActivationFunction.none).activation_fn.activate
        (∑ i ∈ Finset.range (min 2 3),
          ([1, 5] : List ℚ).getD i 0 * ([2, 3, 7] : List ℚ).getD i 0) ∧
    ((Perceptron.mk [2, 3, 7] (1/10)
        ActivationFunction.none).update_weights [1, 5] 4).weights.length =
      3 ∧
    (∀ i, i < min 3 2 →
      ((Perceptron.mk [2, 3, 7] (1/10)
          ActivationFunction.none).update_weights [1, 5] 4).weights.getD i 0 =
        ([2, 3, 7] : List ℚ).getD i 0 + (1/10) * 4 * ([1, 5] : List ℚ).getD i 0) ∧
    ∀ i, 2 ≤ i →
      ((Perceptron.mk [2, 3, 7] (1/10)
          ActivationFunction.none).update_weights [1, 5] 4).weights.getD i 0 =
        ([2, 3, 7] : List ℚ).getD i 0 :=
  c10_length_mismatch_truncates
    (Perceptron.mk [2, 3, 7] (1/10) ActivationFunction.none) [1, 5] 4

/-- C3 counterexample: `rng.gen_range(-1.0..1.0)` samples the half-open
interval `[-1, 1)`, so a draw of exactly `-1` is possible; with that draw,
`new` produces the weight `-1`, which does not lie strictly inside the open
interval `(-1, 1)` — the lower endpoint is a possible value. -/
theorem c3_counterexample :
    ((-1 : ℚ) ≤ -1 ∧ (-1 : ℚ) < 1) ∧
    (Perceptron.new 1 (1/10) ActivationFunction.none
        (fun _ => -1)).weights.getD 0 0 = -1 ∧
    ¬(-1 < (Perceptron.new 1 (1/10) ActivationFunction.none
        (fun _ => -1)).weights.getD 0 0) := by
  refine ⟨by norm_num, by simp [Perceptron.new], ?_⟩
  simp [Perceptron.new]

/-- C3 amended: for every positive `input_size`, learning rate and
activation selection, and every draw stream within `gen_range(-1.0..1.0)`'s
contract (the half-open interval `[-1, 1)`), `new` produces exactly
`input_size` weights, each in `[-1, 1)`: `-1` is a possible value and `1` is
not. -/
theorem c3_amended_weights_in_half_open_interval (n : ℕ) (lr : ℚ)
    (af : ActivationFunction) (draws : ℕ → ℚ)
    (h : ∀ i, i < n → -1 ≤ draws i ∧ draws i < 1) :
    (Perceptron.new n lr af draws).weights.length = n ∧
    ∀ w ∈ (Perceptron.new n lr af draws).weights, -1 ≤ w ∧ w < 1 := by
  refine ⟨by simp [Perceptron.new], ?_⟩
  intro w hw
  simp only [Perceptron.new, List.mem_map, List.mem_range] at hw
  obtain ⟨i, hi, rfl⟩ := hw
  exact h i hi

/-- Witness for the amended C3 at a concrete size and draw stream. -/
theorem c3_amended_weights_in_half_open_interval_witness :
    (Perceptron.new 2 (1/10) ActivationFunction.none
        (fun _ => -1)).weights.length = 2 ∧
    ∀ w ∈ (Perceptron.new 2 (1/10) ActivationFunction.none
        (fun _ => -1)).weights, -1 ≤ w ∧ w < 1 :=
  c3_amended_weights_in_half_open_interval 2 (1/10) ActivationFunction.none
    (fun _ => -1) (fun i _ => by norm_num)

/-- One training step never changes the number of weights. -/
theorem trainStep_weights_length (q q' : Perceptron) (s : List ℚ)
    (h : q.trainStep s = Option.some q') :
    q'.weights.length = q.weights.length := by
  unfold Perceptron.trainStep at h
  cases hg : s.getLast? with
  | none => rw [hg] at h; exact absurd h (by simp)
  | some t =>
    rw [hg] at h
    simp only [Option.some.injEq] at h
    subst h
    simp only [Perceptron.update_weights, List.length_append,
      List.length_zipWith, List.length_drop]
    omega

/-- Folding training steps over any sample list preserves the weight
count (whenever it succeeds). -/
theorem foldlM_trainStep_weights_length :
    ∀ (l : List (List ℚ)) (q q' : Perceptron),
      l.foldlM Perceptron.trainStep q = Option.some q' →
      q'.weights.length = q.weights.length := by
  intro l
  induction l with
  | nil =>
    intro q q' h
    simp only [List.foldlM_nil] at h
    cases h
    rfl
  | cons s l ih =>
    intro q q' h
    rw [List.foldlM_cons] at h
    cases hs : q.trainStep s with
    | none => rw [hs] at h; exact absurd h (by simp)
    | some q1 =>
      rw [hs] at h
      simp only [Option.bind_eq_bind, Option.some_bind] at h
      rw [ih q1 q' h]
      exact trainStep_weights_length q q1 s hs

/-- A whole `train` run preserves the weight count (whenever it succeeds). -/
theorem train_weights_length (p p' : Perceptron) (samples : List (List ℚ))
    (epochs : ℕ) (shuffle : ℕ → List (List ℚ) → List (List ℚ))
    (h : Perceptron.train p samples epochs shuffle = Option.some p') :
    p'.weights.length = p.weights.length := by
  unfold Perceptron.train at h
  generalize hl : List.range epochs = l at h
  clear hl
  induction l generalizing p with
  | nil =>
    simp only [List.foldlM_nil] at h
    cases h
    rfl
  | cons e l ih =>
    rw [List.foldlM_cons] at h
    cases hs : (shuffle e samples).foldlM Perceptron.trainStep p with
    | none => rw [hs] at h; exact absurd h (by simp)
    | some q1 =>
      rw [hs] at h
      simp only [Option.bind_eq_bind, Option.some_bind] at h
      rw [ih q1 h]
      exact foldlM_trainStep_weights_length (shuffle e samples) p q1 hs

/-- C7: `new(input_size, ...)` makes exactly `input_size` weights, and every
successful `train` call (any samples, any epoch count, any shuffles) leaves
the weight count unchanged. -/
theorem c7_weights_length_invariant (n : ℕ) (lr : ℚ)
    (af : ActivationFunction) (draws : ℕ → ℚ) (p p' : Perceptron)
    (samples : List (List ℚ)) (epochs : ℕ)
    (shuffle : ℕ → List (List ℚ) → List (List ℚ))
    (h : Perceptron.train p samples epochs shuffle = Option.some p') :
    (Perceptron.new n lr af draws).weights.length = n ∧
    p'.weights.length = p.weights.length :=
  ⟨by simp [Perceptron.new],
    train_weights_length p p' samples epochs shuffle h⟩

/-- Witness for C7: a concrete one-epoch training run on one sample. -/
theorem c7_weights_length_invariant_witness :
    (Perceptron.new 3 (1/10) ActivationFunction.none
        (fun _ => 0)).weights.length = 3 ∧
    (Perceptron.mk [1/5] (1/10) ActivationFunction.none).weights.length =
      (Perceptron.mk [0] (1/10) ActivationFunction.none).weights.length :=
  c7_weights_length_invariant 3 (1/10) ActivationFunction.none (fun _ => 0)
    (Perceptron.mk [0] (1/10) ActivationFunction.none)
    (Perceptron.mk [1/5] (1/10) ActivationFunction.none)
    [[1, 2]] 1 (fun _ l => l)
    (by
      simp [Perceptron.train, Perceptron.trainStep, Perceptron.feedforward,
        Perceptron.update_weights, ActivationFunction.activate,
        List.range_succ, List.foldlM]
      norm_num)

/-- Folding training steps over a sample list that contains an empty sample
always aborts: the `expect` fires at that sample. -/
theorem foldlM_trainStep_none :
    ∀ (l : List (List ℚ)), [] ∈ l →
      ∀ q : Perceptron, l.foldlM Perceptron.trainStep q = Option.none := by
  intro l
  induction l with
  | nil => intro hmem; exact absurd hmem (List.not_mem_nil _)
  | cons s l ih =>
    intro hmem q
    rw [List.foldlM_cons]
    rcases List.mem_cons.mp hmem with h | h
    · rw [← h]
      simp [Perceptron.trainStep]
    · cases hs : q.trainStep s with
      | none => simp [hs]
      | some q1 => simp [hs, ih h]

/-- C5: an empty sample makes training fail fatally.  The per-sample step on
`[]` is `Option.none` (the `expect` panic) — no update is performed for the
sample and it is not skipped — and the whole `train` call aborts whenever
the sample list contains an empty sample and at least one epoch runs. -/
theorem c5_empty_sample_aborts_training (p : Perceptron)
    (samples : List (List ℚ)) (epochs : ℕ)
    (shuffle : ℕ → List (List ℚ) → List (List ℚ))
    (hmem : [] ∈ samples) (hperm : ∀ e, (shuffle e samples).Perm samples)
    (hpos : 0 < epochs) :
    (∀ q : Perceptron, q.trainStep [] = Option.none) ∧
    Perceptron.train p samples epochs shuffle = Option.none := by
  refine ⟨fun q => rfl, ?_⟩
  obtain ⟨n, rfl⟩ : ∃ n, epochs = n + 1 := ⟨epochs - 1, by omega⟩
  unfold Perceptron.train
  rw [List.range_succ_eq_map, List.foldlM_cons,
    foldlM_trainStep_none (shuffle 0 samples)
      ((hperm 0).mem_iff.mpr hmem) p]
  rfl

/-- Witness for C5: training on the sample list `[[]]` aborts. -/
theorem c5_empty_sample_aborts_training_witness :
    (∀ q : Perceptron, q.trainStep [] = Option.none) ∧
    Perceptron.train (Perceptron.mk [0] (1/10) ActivationFunction.none)
      [[]] 1 (fun _ l => l) = Option.none :=
  c5_empty_sample_aborts_training _ [[]] 1 (fun _ l => l)
    (by simp) (fun e => List.Perm.refl _) (by norm_num)

/-- Transcription of the spec's per-sample step (claim C1, spec §4.4):
split the sample into features (all but last) and target (last), compute
`prediction = feedforward(features)` and `error = target - prediction`, then
update EVERY weight by `weight[i] += learning_rate * error * features[i]`. -/
def Perceptron.specStep (p : Perceptron) (sample : List ℚ) : Perceptron :=
  Perceptron.mk
    ((List.range p.weights.length).map
      (fun i => p.weights.getD i 0 +
        p.learning_rate *
          (sample.getLastD 0 - p.feedforward sample.dropLast) *
          sample.dropLast.getD i 0))
    p.learning_rate p.activation_fn

/-- Transcription of the spec's training loop (claim C1): exactly `epochs`
passes, each processing, in order, a freshly shuffled copy
`shuffle e samples` of the caller's original (never reordered) list. -/
def Perceptron.specTrain (p : Perceptron) (samples : List (List ℚ))
    (epochs : ℕ) (shuffle : ℕ → List (List ℚ) → List (List ℚ)) : Perceptron :=
  (List.range epochs).foldl
    (fun q e => (shuffle e samples).foldl Perceptron.specStep q) p

/-- The spec-side step keeps the weight count. -/
theorem specStep_weights_length (q : Perceptron) (s : List ℚ) :
    (q.specStep s).weights.length = q.weights.length := by
  simp [Perceptron.specStep]

/-- On a nonempty sample whose length is one more than the weight count,
the source's per-sample step agrees exactly with the spec's description. -/
theorem trainStep_eq_specStep (q : Perceptron) (s : List ℚ) (hs : s ≠ [])
    (hl : s.length = q.weights.length + 1) :
    q.trainStep s = Option.some (q.specStep s) := by
  have hfl : s.dropLast.length = q.weights.length := by
    rw [List.length_dropLast, hl]
    omega
  obtain ⟨t, ht⟩ : ∃ t, s.getLast? = Option.some t := by
    cases hgl : s.getLast? with
    | none => exact absurd (List.getLast?_eq_none_iff.mp hgl) hs
    | some t => exact ⟨t, rfl⟩
  have htd : s.getLastD 0 = t := by
    rw [List.getLastD_eq_getLast?, ht]
    rfl
  have hdrop : q.weights.drop s.dropLast.length = [] := by
    rw [hfl]
    exact List.drop_length _
  unfold Perceptron.trainStep
  rw [ht]
  dsimp only
  congr 1
  unfold Perceptron.update_weights Perceptron.specStep
  congr 1
  rw [hdrop, List.append_nil, htd]
  apply List.ext_getElem
  · simp [List.length_zipWith, hfl]
  · intro i h1 h2
    have hiw : i < q.weights.length := by
      simpa using h2
    have hif : i < s.dropLast.length := by
      rw [hfl]
      exact hiw
    simp only [List.getElem_zipWith, List.getElem_map, List.getElem_range]
    rw [List.getD_eq_getElem _ _ hiw, List.getD_eq_getElem _ _ hif]

/-- One pass over a list of nonempty well-sized samples succeeds and agrees
with the spec's pass. -/
theorem foldlM_trainStep_eq_foldl_specStep :
    ∀ (l : List (List ℚ)) (q : Perceptron),
      (∀ s ∈ l, s ≠ []) → (∀ s ∈ l, s.length = q.weights.length + 1) →
      l.foldlM Perceptron.trainStep q =
        Option.some (l.foldl Perceptron.specStep q) := by
  intro l
  induction l with
  | nil => intro q _ _; rfl
  | cons s l ih =>
    intro q hne hl
    rw [List.foldlM_cons,
      trainStep_eq_specStep q s (hne s (List.mem_cons_self s l))
        (hl s (List.mem_cons_self s l))]
    simp only [Option.bind_eq_bind, Option.some_bind, List.foldl_cons]
    exact ih (q.specStep s) (fun s' h => hne s' (List.mem_cons_of_mem _ h))
      (fun s' h => by
        rw [specStep_weights_length]
        exact hl s' (List.mem_cons_of_mem _ h))

/-- A spec-side pass keeps the weight count. -/
theorem foldl_specStep_weights_length :
    ∀ (l : List (List ℚ)) (q : Perceptron),
      (l.foldl Perceptron.specStep q).weights.length = q.weights.length := by
  intro l
  induction l with
  | nil => intro q; rfl
  | cons s l ih =>
    intro q
    rw [List.foldl_cons, ih, specStep_weights_length]

/-- Spec-side training keeps the weight count, epoch list by epoch list. -/
theorem foldl_epochs_weights_length
    (shuffle : ℕ → List (List ℚ) → List (List ℚ))
    (samples : List (List ℚ)) :
    ∀ (es : List ℕ) (q : Perceptron),
      ((es.foldl
          (fun r e => (shuffle e samples).foldl Perceptron.specStep r)
          q).weights.length) = q.weights.length := by
  intro es
  induction es with
  | nil => intro q; rfl
  | cons e es ih =>
    intro q
    rw [List.foldl_cons, ih, foldl_specStep_weights_length]

/-- C1: with well-formed samples (nonempty, one target plus one feature per
weight) and a shuffle that permutes the full sample list each epoch, `train`
performs exactly `epochs` passes, each over the freshly shuffled copy
`shuffle e samples` of the caller's original list (which, the model being
pure, is never reordered), and on each sample splits off the last element
as target, predicts over the features, and updates every weight by
`weight[i] += learning_rate * error * features[i]` — that is, `train`
returns exactly the result of the spec's loop `specTrain`. -/
theorem c1_train_follows_spec_loop (p : Perceptron)
    (samples : List (List ℚ)) (epochs : ℕ)
    (shuffle : ℕ → List (List ℚ) → List (List ℚ))
    (hne : ∀ s ∈ samples, s ≠ [])
    (hlen : ∀ s ∈ samples, s.length = p.weights.length + 1)
    (hperm : ∀ e, (shuffle e samples).Perm samples) :
    Perceptron.train p samples epochs shuffle =
      Option.some (Perceptron.specTrain p samples epochs shuffle) := by
  unfold Perceptron.train Perceptron.specTrain
  induction epochs with
  | zero => rfl
  | succ n ih =>
    rw [List.range_succ, List.foldlM_append, List.foldl_append, ih]
    simp only [Option.bind_eq_bind, Option.some_bind, List.foldlM_cons,
      List.foldlM_nil, List.foldl_cons, List.foldl_nil]
    set q := (List.range n).foldl
      (fun r e => (shuffle e samples).foldl Perceptron.specStep r) p with hq
    have hql : q.weights.length = p.weights.length :=
      foldl_epochs_weights_length shuffle samples (List.range n) p
    rw [foldlM_trainStep_eq_foldl_specStep (shuffle n samples) q
      (fun s h => hne s ((hperm n).mem_iff.mp h))
      (fun s h => by
        rw [hql]
        exact hlen s ((hperm n).mem_iff.mp h))]
    rfl

/-- Witness for C1: a concrete one-epoch run on one sample. -/
theorem c1_train_follows_spec_loop_witness :
    Perceptron.train (Perceptron.mk [0] (1/10) ActivationFunction.none)
        [[1, 2]] 1 (fun _ l => l) =
      Option.some
        (Perceptron.specTrain
          (Perceptron.mk [0] (1/10) ActivationFunction.none)
          [[1, 2]] 1 (fun _ l => l)) :=
  c1_train_follows_spec_loop _ _ _ _
    (by simp) (by simp) (fun e => List.Perm.refl _)

/-- The tolerance check applied by `test` to one zipped pair. -/
def Perceptron.correctB (p : Perceptron) (pr : List ℚ × ℚ) : Bool :=
  |p.feedforward pr.1.dropLast - pr.2| < 1/10000

/-- With every zipped sample nonempty, the counting loop of `test` succeeds
and counts exactly the pairs passing the tolerance check. -/
theorem foldlM_testStep_eq_countP (p : Perceptron) :
    ∀ (l : List (List ℚ × ℚ)) (acc : ℕ), (∀ pr ∈ l, pr.1 ≠ []) →
      l.foldlM p.testStep acc = Option.some (acc + l.countP p.correctB) := by
  intro l
  induction l with
  | nil => intro acc _; simp
  | cons pr l ih =>
    intro acc hne
    have h1 : pr.1.isEmpty = false := by
      simpa [List.isEmpty_iff] using hne pr (List.mem_cons_self pr l)
    have hstep : p.testStep acc pr =
        Option.some
          (if |p.feedforward pr.1.dropLast - pr.2| < 1/10000 then acc + 1
            else acc) := by
      unfold Perceptron.testStep
      rw [h1]
      simp only [Bool.false_eq_true, if_false]
      split <;> rfl
    rw [List.foldlM_cons, hstep]
    simp only [Option.bind_eq_bind, Option.some_bind]
    rw [ih _ (fun x hx => hne x (List.mem_cons_of_mem _ hx)), List.countP_cons]
    simp only [one_div]
    by_cases hc : |p.feedforward pr.1.dropLast - pr.2| < (10000 : ℚ)⁻¹
    · rw [if_pos hc]
      simp [Perceptron.correctB, one_div, hc]
      omega
    · rw [if_neg hc]
      simp [Perceptron.correctB, one_div, hc]

/-- `test` on a nonempty list of nonempty samples returns the fraction of
zipped pairs passing the tolerance check. -/
theorem test_eq_countP_div (p : Perceptron) (inputs : List (List ℚ))
    (outputs : List ℚ) (hne : inputs ≠ [])
    (hsamp : ∀ s ∈ inputs, s ≠ []) :
    p.test inputs outputs =
      Option.some
        (((inputs.zip outputs).countP p.correctB : ℚ) / inputs.length) := by
  unfold Perceptron.test
  rw [foldlM_testStep_eq_countP p _ 0
    (fun pr hpr => hsamp pr.1 (List.of_mem_zip hpr).1)]
  have hl : inputs.length ≠ 0 := by
    simpa [List.length_eq_zero] using hne
  simp [hl]

/-- C4 counterexample: `test` on the (parallel) pair of empty lists returns
no value at all — the model of the `NaN` from `correct / 0.0` — although
every (zero) samples' predictions are vacuously within tolerance, so the
claim's "returns exactly 1.0 iff every sample is within tolerance" fails at
the empty input. -/
theorem c4_counterexample :
    ([] : List (List ℚ)).length = ([] : List ℚ).length ∧
    Perceptron.test (Perceptron.mk [0] (1/10) ActivationFunction.none) [] [] =
      Option.none ∧
    Option.none ≠ Option.some (1 : ℚ) := by
  refine ⟨rfl, ?_, by simp⟩
  simp [Perceptron.test]

/-- C4 amended: for every perceptron and every pair of parallel sequences
that is nonempty and whose samples are each nonempty, `test` returns a value
in `[0, 1]`; it returns exactly `1` iff every zipped sample's prediction
satisfies `|prediction - expected| < 0.0001`, and exactly `0` iff no zipped
sample does. -/
theorem c4_amended_accuracy_bounds (p : Perceptron)
    (inputs : List (List ℚ)) (outputs : List ℚ) (hne : inputs ≠ [])
    (hpar : inputs.length = outputs.length)
    (hsamp : ∀ s ∈ inputs, s ≠ []) :
    ∃ a : ℚ, p.test inputs outputs = Option.some a ∧ 0 ≤ a ∧ a ≤ 1 ∧
      (a = 1 ↔ ∀ pr ∈ inputs.zip outputs,
        |p.feedforward pr.1.dropLast - pr.2| < 1/10000) ∧
      (a = 0 ↔ ∀ pr ∈ inputs.zip outputs,
        ¬ |p.feedforward pr.1.dropLast - pr.2| < 1/10000) := by
  have hzlen : (inputs.zip outputs).length = inputs.length := by
    rw [List.length_zip, hpar, min_self]
  have hn : 0 < inputs.length := List.length_pos.mpr hne
  have hnq : (0 : ℚ) < (inputs.length : ℚ) := by exact_mod_cast hn
  have hk : (inputs.zip outputs).countP p.correctB ≤ inputs.length := by
    rw [← hzlen]
    exact List.countP_le_length p.correctB
  refine ⟨((inputs.zip outputs).countP p.correctB : ℚ) / inputs.length,
    test_eq_countP_div p inputs outputs hne hsamp, ?_, ?_, ?_, ?_⟩
  · positivity
  · rw [div_le_one hnq]
    exact_mod_cast hk
  · rw [div_eq_one_iff_eq (ne_of_gt hnq)]
    rw [show ((inputs.length : ℚ)) = (((inputs.zip outputs).length : ℕ) : ℚ)
      by rw [hzlen]]
    rw [Nat.cast_inj, List.countP_eq_length]
    constructor
    · intro h pr hpr
      have := h pr hpr
      simpa [Perceptron.correctB] using this
    · intro h pr hpr
      simpa [Perceptron.correctB] using h pr hpr
  · rw [div_eq_zero_iff]
    have : ((inputs.length : ℚ)) ≠ 0 := ne_of_gt hnq
    simp only [this, or_false, Nat.cast_eq_zero, List.countP_eq_zero]
    constructor
    · intro h pr hpr
      have := h pr hpr
      simpa [Perceptron.correctB] using this
    · intro h pr hpr
      simpa [Perceptron.correctB] using h pr hpr

/-- Witness for the amended C4 at a concrete, all-correct instance. -/
theorem c4_amended_accuracy_bounds_witness :
    ∃ a : ℚ,
      Perceptron.test (Perceptron.mk [2] (1/10) ActivationFunction.none)
          [[1, 5]] [2] = Option.some a ∧ 0 ≤ a ∧ a ≤ 1 ∧
      (a = 1 ↔ ∀ pr ∈ ([[1, 5]] : List (List ℚ)).zip ([2] : List ℚ),
        |(Perceptron.mk [2] (1/10)
            ActivationFunction.none).feedforward pr.1.dropLast - pr.2| <
          1/10000) ∧
      (a = 0 ↔ ∀ pr ∈ ([[1, 5]] : List (List ℚ)).zip ([2] : List ℚ),
        ¬ |(Perceptron.mk [2] (1/10)
            ActivationFunction.none).feedforward pr.1.dropLast - pr.2| <
          1/10000) :=
  c4_amended_accuracy_bounds _ [[1, 5]] [2] (by simp) (by simp) (by simp)

/-- The training data of `tests::test_perceptron`: samples for `f(x) = 2x`. -/
def trainingData : List (List ℚ) := [[0, 0], [1, 2], [2, 4], [3, 6], [8, 16]]

/-- The testing data of `tests::test_perceptron`. -/
def testingData : List (List ℚ) := [[0, 0], [1, 2], [2, 4], [3, 6], [4, 8]]

/-- The expected outputs of `tests::test_perceptron`. -/
def expectedOutputs : List ℚ := [0, 2, 4, 6, 8]

/-- The factor by which one step on the sample `[x, 2x]` multiplies the
deviation `2 - w` of a single weight trained at rate `1/10`. -/
def sampleFactor (s : List ℚ) : ℚ := 1 - (s.headD 0)^2 / 10

/-- One training step of a single-weight identity-activation perceptron on a
two-element sample, computed in closed form. -/
theorem trainStep_pair (w x y : ℚ) :
    (Perceptron.mk [w] (1/10) ActivationFunction.none).trainStep [x, y] =
      Option.some
        (Perceptron.mk [w + 1/10 * (y - x * w) * x] (1/10)
          ActivationFunction.none) := by
  unfold Perceptron.trainStep Perceptron.feedforward Perceptron.update_weights
    ActivationFunction.activate
  simp

/-- One step on any sample of the training set multiplies the deviation
`2 - w` by that sample's `sampleFactor`. -/
theorem c9_step (w : ℚ) (s : List ℚ) (hs : s ∈ trainingData) :
    ∃ w', (Perceptron.mk [w] (1/10) ActivationFunction.none).trainStep s =
        Option.some (Perceptron.mk [w'] (1/10) ActivationFunction.none) ∧
      2 - w' = (2 - w) * sampleFactor s := by
  simp only [trainingData] at hs
  fin_cases hs
  all_goals refine ⟨_, trainStep_pair w _ _, ?_⟩
  all_goals simp [sampleFactor]
  all_goals ring

/-- One pass over any list of training-set samples succeeds and multiplies
the deviation `2 - w` by the product of the samples' factors. -/
theorem c9_epoch :
    ∀ (l : List (List ℚ)) (w : ℚ), (∀ s ∈ l, s ∈ trainingData) →
      ∃ w', l.foldlM Perceptron.trainStep
          (Perceptron.mk [w] (1/10) ActivationFunction.none) =
        Option.some (Perceptron.mk [w'] (1/10) ActivationFunction.none) ∧
      2 - w' = (2 - w) * (l.map sampleFactor).prod := by
  intro l
  induction l with
  | nil => intro w _; exact ⟨w, rfl, by simp⟩
  | cons s l ih =>
    intro w hmem
    obtain ⟨w1, hstep, hd1⟩ := c9_step w s (hmem s (List.mem_cons_self _ _))
    obtain ⟨w', hfold, hd⟩ := ih w1 (fun s' h => hmem s' (List.mem_cons_of_mem _ h))
    refine ⟨w', ?_, ?_⟩
    · rw [List.foldlM_cons, hstep]
      simpa using hfold
    · rw [List.map_cons, List.prod_cons, hd, hd1]
      ring

/-- Any permutation of the training set has factor product `-729/2500`:
the per-epoch contraction is independent of the shuffle order. -/
theorem c9_perm_prod (l : List (List ℚ)) (hp : l.Perm trainingData) :
    (l.map sampleFactor).prod = -729/2500 := by
  rw [(hp.map sampleFactor).prod_eq]
  norm_num [trainingData, sampleFactor]

/-- After `n` epochs (each an arbitrary permutation of the training set),
training succeeds and the deviation is `(2 - w) * (-729/2500)^n`. -/
theorem c9_epochs (shuffle : ℕ → List (List ℚ) → List (List ℚ))
    (hperm : ∀ e, (shuffle e trainingData).Perm trainingData) :
    ∀ (n : ℕ) (w : ℚ),
      ∃ w', Perceptron.train
          (Perceptron.mk [w] (1/10) ActivationFunction.none)
          trainingData n shuffle =
        Option.some (Perceptron.mk [w'] (1/10) ActivationFunction.none) ∧
      2 - w' = (2 - w) * (-729/2500)^n := by
  intro n
  induction n with
  | zero => intro w; exact ⟨w, rfl, by simp⟩
  | succ m ih =>
    intro w
    obtain ⟨wm, htr, hd⟩ := ih w
    obtain ⟨w', hep, hd'⟩ := c9_epoch (shuffle m trainingData) wm
      (fun s h => (hperm m).mem_iff.mp h)
    refine ⟨w', ?_, ?_⟩
    · unfold Perceptron.train at htr ⊢
      rw [List.range_succ, List.foldlM_append, htr]
      simp only [Option.bind_eq_bind, Option.some_bind, List.foldlM_cons,
        List.foldlM_nil]
      rw [hep]
      rfl
    · rw [hd', c9_perm_prod _ (hperm m), hd, pow_succ]
      ring

/-- A single weight within `1/40000` of `2` predicts every testing sample
within the `0.0001` tolerance, so `test` returns accuracy exactly `1`. -/
theorem c9_test_eval (w : ℚ) (hw : |2 - w| < 1/40000) :
    Perceptron.test (Perceptron.mk [w] (1/10) ActivationFunction.none)
      testingData expectedOutputs = Option.some 1 := by
  obtain ⟨hw1, hw2⟩ := abs_lt.mp hw
  rw [test_eq_countP_div _ _ _ (by simp [testingData]) (by decide)]
  have hall : ∀ pr ∈ testingData.zip expectedOutputs,
      (Perceptron.mk [w] (1/10) ActivationFunction.none).correctB pr = true := by
    intro pr hpr
    simp only [testingData, expectedOutputs, List.zip_cons_cons,
      List.zip_nil_right] at hpr
    fin_cases hpr
    all_goals simp [Perceptron.correctB, Perceptron.feedforward,
      ActivationFunction.activate, abs_lt]
    all_goals constructor <;> linarith
  rw [List.countP_eq_length.mpr hall]
  norm_num [testingData, expectedOutputs]

/-- C9: for every initial draw in the initializer's range and every
sequence of per-epoch permutations of the training set, the perceptron of
`tests::test_perceptron` (input size 1, identity activation, learning rate
`1/10`) trained for 100 epochs on the `target = 2x` samples reaches, when
evaluated on the held-out points, accuracy exactly `1`.  The deviation
`2 - w` is multiplied by `-729/2500` each epoch regardless of shuffle
order, so after 100 epochs it is far below the `0.0001` tolerance. -/
theorem c9_training_reaches_full_accuracy (draws : ℕ → ℚ)
    (hdraw : -1 ≤ draws 0 ∧ draws 0 < 1)
    (shuffle : ℕ → List (List ℚ) → List (List ℚ))
    (hperm : ∀ e, (shuffle e trainingData).Perm trainingData) :
    ∃ p' : Perceptron,
      Perceptron.train (Perceptron.new 1 (1/10) ActivationFunction.none draws)
          trainingData 100 shuffle = Option.some p' ∧
      p'.test testingData expectedOutputs = Option.some 1 := by
  have hnew : Perceptron.new 1 (1/10) ActivationFunction.none draws =
      Perceptron.mk [draws 0] (1/10) ActivationFunction.none := by
    rfl
  obtain ⟨w', htr, hd⟩ := c9_epochs shuffle hperm 100 (draws 0)
  refine ⟨_, by rw [hnew]; exact htr, ?_⟩
  apply c9_test_eval
  have h1 : |2 - draws 0| ≤ 3 := by
    rw [abs_le]
    constructor <;> linarith [hdraw.1, hdraw.2]
  have h2 : |2 - w'| ≤ 3 * (729/2500 : ℚ)^100 := by
    rw [hd, abs_mul, abs_pow]
    have : |(-729/2500 : ℚ)| = 729/2500 := by norm_num
    rw [this]
    have hp : (0 : ℚ) ≤ (729/2500 : ℚ)^100 := by positivity
    nlinarith [h1, hp]
  have h3 : 3 * (729/2500 : ℚ)^100 < 1/40000 := by
    have hle : (729/2500 : ℚ)^100 ≤ (3/10 : ℚ)^100 := by
      apply pow_le_pow_left₀ (by norm_num) (by norm_num)
    have : (3/10 : ℚ)^100 < 1/120000 := by
      rw [div_pow, div_lt_div_iff₀ (by positivity) (by norm_num)]
      norm_num
    linarith
  linarith

/-- Witness for C9: the zero initial draw and the identity shuffles. -/
theorem c9_training_reaches_full_accuracy_witness :
    ∃ p' : Perceptron,
      Perceptron.train
          (Perceptron.new 1 (1/10) ActivationFunction.none (fun _ => 0))
          trainingData 100 (fun _ l => l) = Option.some p' ∧
      p'.test testingData expectedOutputs = Option.some 1 :=
  c9_training_reaches_full_accuracy (fun _ => 0) ⟨by norm_num, by norm_num⟩
    (fun _ l => l) (fun e => List.Perm.refl _)
